import Mathlib

/-! Shallow embedding of the minigrep library (src/lib.rs): configuration
building, line splitting as in Rust's `str::lines`, and the two search
functions, together with theorems settling the specification claims.

Strings are modelled as `List Char`.  The process environment variable
`MINIGREP_IGNORE_CASE` is modelled as an `Option (List Char)` parameter,
the filesystem as a function from file names to the outcome of reading
them, and console output as a list of emitted lines. -/

set_option autoImplicit false

namespace Minigrep

/-- Boolean test: is `p` an initial segment of `l`?  (Embeds the prefix
test used by substring containment.) -/
def isPrefixB : List Char → List Char → Bool
  | [], _ => true
  | _ :: _, [] => false
  | a :: as, b :: bs => (a == b) && isPrefixB as bs

/-- Embedding of Rust `str::contains`: `strContains hay needle` holds when
`needle` occurs contiguously inside `hay`. -/
def strContains : List Char → List Char → Bool
  | [], needle => isPrefixB needle []
  | c :: t, needle => isPrefixB needle (c :: t) || strContains t needle

/-- One pass over the text gathering the current segment (the part of the
text up to the first `'\n'`) and the later newline-separated segments.
This is the plain split of the text at `'\n'` characters. -/
def splitNl : List Char → List Char × List (List Char)
  | [] => ([], [])
  | c :: rest =>
      let p := splitNl rest
      if c = '\n' then ([], p.1 :: p.2) else (c :: p.1, p.2)

/-- All the `'\n'`-separated segments of a text, in order (never empty:
the empty text has the single empty segment). -/
def splitSegs (c : List Char) : List (List Char) :=
  (splitNl c).1 :: (splitNl c).2

/-- Remove one trailing `'\r'`, as Rust's `str::lines` does for a line
that was terminated by `'\n'`. -/
def stripTrailCR (l : List Char) : List Char :=
  if l.getLast? = some '\r' then l.dropLast else l

/-- Remove one leading `'\r'` of a reversed accumulator and reverse it:
the accumulator holds the current line backwards, so this strips the
`'\r'` sitting right before the `'\n'` that ended the line. -/
def stripCRrev (acc : List Char) : List Char :=
  match acc with
  | [] => []
  | c :: rest => if c = '\r' then rest.reverse else (c :: rest).reverse

/-- Turn the segment list of a text into its line list: every segment but
the last was terminated by `'\n'` and loses a trailing `'\r'`; the last
segment was unterminated, is kept verbatim, and is dropped when empty
(so a trailing newline yields no extra empty line). -/
def assemble : List (List Char) → List (List Char)
  | [] => []
  | [l] => if l = [] then [] else [l]
  | l :: ls => stripTrailCR l :: assemble ls

/-- Worker for `rustLines`: scans the text keeping the current line
reversed in `acc`, emitting a line at each `'\n'` (with the `'\r'`
before it stripped) and the final unterminated line at the end.  A
`'\n'` that ends the text emits no further line. -/
def linesGo : List Char → List Char → List (List Char)
  | [], acc => [acc.reverse]
  | c :: rest, acc =>
      if c = '\n' then
        match rest with
        | [] => [stripCRrev acc]
        | _ :: _ => stripCRrev acc :: linesGo rest []
      else linesGo rest (c :: acc)

/-- Embedding of Rust `str::lines`, as called by `search` and
`search_case_insensitive`: lines are split at `'\n'`, a `'\r'` directly
before a `'\n'` is removed, a final line ending produces no trailing
empty line, and the empty text has no lines. -/
def rustLines : List Char → List (List Char)
  | [] => []
  | s => linesGo s []

/-- A search hit: the full text of the matching line and its 1-based
line number (embeds `SearchResult` of src/lib.rs). -/
@[ext]
structure SearchResult where
  line : List Char
  line_number : Nat
  deriving DecidableEq

/-- Create a new SearchResult instance (embeds `SearchResult::new`). -/
def SearchResult.new (line : List Char) (line_number : Nat) : SearchResult :=
  { line := line, line_number := line_number }

/-- The `for (i, line) in contents.lines().enumerate()` loop shared by the
two search functions of src/lib.rs: keep each line satisfying the match
test, paired with its 1-based number (`i + 1` for 0-based index `i`). -/
def scanLines (matchLine : List Char → Bool) : Nat → List (List Char) → List SearchResult
  | _, [] => []
  | i, l :: ls =>
      if matchLine l then SearchResult.new l (i + 1) :: scanLines matchLine (i + 1) ls
      else scanLines matchLine (i + 1) ls

/-- Embedding of `search` (src/lib.rs): case-sensitive scan, keeping the
lines that contain `query` as an exact substring. -/
def search (query contents : List Char) : List SearchResult :=
  scanLines (fun line => strContains line query) 0 (rustLines contents)

/-- Per-character lowercasing, embedding the `to_lowercase` calls of
`search_case_insensitive`. -/
def lowerStr (s : List Char) : List Char := s.map Char.toLower

/-- Embedding of `search_case_insensitive` (src/lib.rs): keep the lines
whose lowercasing contains the lowercased query, storing the original
line text. -/
def search_case_insensitive (query contents : List Char) : List SearchResult :=
  scanLines (fun line => strContains (lowerStr line) (lowerStr query)) 0 (rustLines contents)

/-- The message `search` and `search_case_insensitive` print when the
result vector is empty. -/
def noResultsMsg : List Char := ("---> No results found").data

/-- `search` together with its console side channel: the source prints
`noResultsMsg` exactly when `results.len() == 0`. -/
def searchWithLog (query contents : List Char) :
    List SearchResult × List (List Char) :=
  let results := search query contents
  (results, if results.length = 0 then [noResultsMsg] else [])

/-- `search_case_insensitive` together with its console side channel. -/
def searchCiWithLog (query contents : List Char) :
    List SearchResult × List (List Char) :=
  let results := search_case_insensitive query contents
  (results, if results.length = 0 then [noResultsMsg] else [])

/-- Embedding of the `Config` struct of src/lib.rs. -/
structure Config where
  query : List Char
  filename : List Char
  ignore_case : Bool
  deriving DecidableEq

/-- Embedding of `Config::new`: store query and filename verbatim and set
`ignore_case` exactly when the `MINIGREP_IGNORE_CASE` variable (modelled
by `env`; `none` covers absent or unreadable) reads Ok and equals "1". -/
def Config.new (query filename : List Char) (env : Option (List Char)) : Config :=
  { query := query
    filename := filename
    ignore_case :=
      match env with
      | some v => v == ['1']
      | none => false }

/-- The fixed usage message carried by the insufficient-arguments error. -/
def usageMsg : List Char :=
  ("Not enough arguments. USAGE is: minigrep <query> <filename>").data

/-- Embedding of `Config::new_from_args`: fewer than 3 argument tokens is
an error carrying `usageMsg`; otherwise build the config from `args[1]`
(query) and `args[2]` (filename).  The `dbg` flag only controls debug
printing in the source and does not affect the returned value. -/
def Config.new_from_args (args : List (List Char)) (dbg : Bool)
    (env : Option (List Char)) : Except (List Char) Config :=
  if args.length < 3 then Except.error usageMsg
  else
    let _ := dbg
    Except.ok (Config.new (args.getD 1 []) (args.getD 2 []) env)

/-- Embedding of `read_file`: look the configured filename up in the
modelled filesystem `fs`. -/
def read_file (fs : List Char → Except (List Char) (List Char))
    (config : Config) : Except (List Char) (List Char) :=
  fs config.filename

/-- One output line of `run`'s reporting loop:
`Finding #<counter> at line <n> :: <line>`. -/
def formatFinding (counter : Nat) (r : SearchResult) : List Char :=
  ("Finding #").data ++ (Nat.repr counter).data ++ (" at line ").data ++
    (Nat.repr r.line_number).data ++ (" :: ").data ++ r.line

/-- The reporting loop of `run`: one formatted line per result, with the
finding counter starting at 1 and incremented per result. -/
def formatFindings : Nat → List SearchResult → List (List Char)
  | _, [] => []
  | counter, r :: rs => formatFinding counter r :: formatFindings (counter + 1) rs

/-- Embedding of `run` (src/lib.rs): read the file through `fs`,
propagating a read error unchanged with no output produced; otherwise
search (mode chosen by `ignore_case`) and return the emitted console
lines (the search's own side channel, then one line per finding). -/
def run (fs : List Char → Except (List Char) (List Char)) (config : Config) :
    Except (List Char) (List (List Char)) :=
  match read_file fs config with
  | Except.error e => Except.error e
  | Except.ok contents =>
      let rl := if config.ignore_case
        then searchCiWithLog config.query contents
        else searchWithLog config.query contents
      Except.ok (rl.2 ++ formatFindings 1 rl.1)

/-- Modelled from the spec: the line-splitting the words of claim C5
describe, with no `'\r'` handling — a line is a maximal run of
characters other than `'\n'`, a trailing newline produces no spurious
empty trailing line, and empty input yields zero lines. -/
def claimLines (c : List Char) : List (List Char) :=
  let segs := splitSegs c
  if segs.getLast? = some [] then segs.dropLast else segs

/-! Substring containment: `strContains` agrees with the mathematical
statement "the needle occurs contiguously in the haystack". -/

theorem isPrefixB_iff (p l : List Char) : isPrefixB p l = true ↔ ∃ t, l = p ++ t := by
  induction p generalizing l with
  | nil => simp [isPrefixB]
  | cons a as ih =>
    cases l with
    | nil =>
      simp [isPrefixB]
    | cons b bs =>
      simp only [isPrefixB, Bool.and_eq_true, beq_iff_eq, ih, List.cons_append,
        List.cons.injEq]
      constructor
      · rintro ⟨hab, t, ht⟩
        exact ⟨t, hab.symm, ht⟩
      · rintro ⟨t, hb, ht⟩
        exact ⟨hb.symm, t, ht⟩

theorem strContains_iff (hay q : List Char) :
    strContains hay q = true ↔ ∃ s t, hay = s ++ q ++ t := by
  induction hay with
  | nil =>
    simp only [strContains, isPrefixB_iff]
    constructor
    · rintro ⟨t, ht⟩
      exact ⟨[], t, by simpa using ht⟩
    · rintro ⟨s, t, h⟩
      rcases List.append_eq_nil.mp h.symm with ⟨hsq, ht⟩
      rcases List.append_eq_nil.mp hsq with ⟨hs, hq⟩
      exact ⟨[], by simp [hq]⟩
  | cons c t ih =>
    simp only [strContains, Bool.or_eq_true, isPrefixB_iff, ih]
    constructor
    · rintro (⟨u, hu⟩ | ⟨s, u, h⟩)
      · exact ⟨[], u, by simpa using hu⟩
      · exact ⟨c :: s, u, by simp [h]⟩
    · rintro ⟨s, u, h⟩
      cases s with
      | nil => exact Or.inl ⟨u, by simpa using h⟩
      | cons a s' =>
        simp only [List.cons_append] at h
        rw [List.cons.injEq] at h
        exact Or.inr ⟨s', u, h.2⟩

/-! The shared line-scanning loop: membership characterisation, strictly
ascending line numbers, and behaviour on all-false / all-true tests. -/

theorem scanLines_mem_iff (p : List Char → Bool) (ls : List (List Char))
    (i : Nat) (r : SearchResult) :
    r ∈ scanLines p i ls ↔
      ∃ j, j < ls.length ∧ ls.getD j [] = r.line ∧ r.line_number = i + j + 1
        ∧ p (ls.getD j []) = true := by
  induction ls generalizing i with
  | nil => simp [scanLines]
  | cons l ls ih =>
    constructor
    · intro hr
      simp only [scanLines] at hr
      have tail : r ∈ scanLines p (i + 1) ls →
          ∃ j, j < (l :: ls).length ∧ (l :: ls).getD j [] = r.line
            ∧ r.line_number = i + j + 1 ∧ p ((l :: ls).getD j []) = true := by
        intro hr'
        rcases (ih (i + 1)).mp hr' with ⟨j, hj, h1, h2, h3⟩
        refine ⟨j + 1, by simpa using hj, by simpa using h1, by omega, by simpa using h3⟩
      by_cases hp : p l
      · rw [if_pos hp] at hr
        rcases List.mem_cons.mp hr with rfl | hr'
        · exact ⟨0, by simp, rfl, rfl, by simpa using hp⟩
        · exact tail hr'
      · rw [if_neg hp] at hr
        exact tail hr
    · rintro ⟨j, hj, h1, h2, h3⟩
      cases j with
      | zero =>
        simp only [List.getD_cons_zero] at h1 h3
        have hr : r = SearchResult.new l (i + 1) := by
          cases r
          simp only [SearchResult.new, SearchResult.mk.injEq]
          simp only [SearchResult.new] at h1 h2
          exact ⟨h1.symm, by omega⟩
        subst hr
        simp [scanLines, h3]
      | succ j =>
        simp only [List.getD_cons_succ] at h1 h3
        have hr' : r ∈ scanLines p (i + 1) ls :=
          (ih (i + 1)).mpr ⟨j, by simpa using hj, h1, by omega, h3⟩
        simp only [scanLines]
        split
        · exact List.mem_cons_of_mem _ hr'
        · exact hr'

theorem scanLines_lt (p : List Char → Bool) (ls : List (List Char)) :
    ∀ i r, r ∈ scanLines p i ls → i < r.line_number := by
  induction ls with
  | nil => intro i r h; simp [scanLines] at h
  | cons l ls ih =>
    intro i r h
    simp only [scanLines] at h
    split at h
    · rcases List.mem_cons.mp h with rfl | h'
      · simp [SearchResult.new]
      · have := ih (i + 1) r h'
        omega
    · have := ih (i + 1) r h
      omega

theorem scanLines_pairwise (p : List Char → Bool) (ls : List (List Char)) :
    ∀ i, (scanLines p i ls).Pairwise (fun a b => a.line_number < b.line_number) := by
  induction ls with
  | nil => intro i; simp [scanLines]
  | cons l ls ih =>
    intro i
    simp only [scanLines]
    split
    · refine List.Pairwise.cons ?_ (ih (i + 1))
      intro b hb
      have := scanLines_lt p ls (i + 1) b hb
      simp only [SearchResult.new]
      omega
    · exact ih (i + 1)

theorem scanLines_eq_nil (p : List Char → Bool) :
    ∀ ls, (∀ l ∈ ls, p l = false) → ∀ i, scanLines p i ls = [] := by
  intro ls
  induction ls with
  | nil => intro _ i; rfl
  | cons l ls ih =>
    intro h i
    have hl : p l = false := h l (List.mem_cons_self l ls)
    simp only [scanLines, hl, Bool.false_eq_true, if_false]
    exact ih (fun l' hl' => h l' (List.mem_cons_of_mem l hl')) (i + 1)

theorem scanLines_all (p : List Char → Bool) :
    ∀ ls, (∀ l ∈ ls, p l = true) → ∀ i,
      (scanLines p i ls).length = ls.length ∧
      ∀ j, j < ls.length →
        (scanLines p i ls).getD j (SearchResult.new [] 0)
          = SearchResult.new (ls.getD j []) (i + j + 1) := by
  intro ls
  induction ls with
  | nil =>
    intro _ i
    exact ⟨rfl, fun j hj => absurd hj (by simp)⟩
  | cons l ls ih =>
    intro h i
    have hl : p l = true := h l (List.mem_cons_self l ls)
    have ih' := ih (fun l' hl' => h l' (List.mem_cons_of_mem l hl')) (i + 1)
    simp only [scanLines, hl, if_true]
    constructor
    · simpa using ih'.1
    · intro j hj
      cases j with
      | zero => rfl
      | succ j =>
        simp only [List.getD_cons_succ]
        rw [ih'.2 j (by simpa using hj)]
        simp only [SearchResult.new, SearchResult.mk.injEq]
        refine ⟨trivial, by omega⟩

theorem scanLines_congr (p q : List Char → Bool) :
    ∀ ls, (∀ l ∈ ls, p l = q l) → ∀ i, scanLines p i ls = scanLines q i ls := by
  intro ls
  induction ls with
  | nil => intro _ _; rfl
  | cons l ls ih =>
    intro h i
    have hl : p l = q l := h l (List.mem_cons_self l ls)
    have ih' := ih (fun l' hl' => h l' (List.mem_cons_of_mem l hl')) (i + 1)
    simp only [scanLines, hl, ih']

theorem strContains_nil (x : List Char) : strContains x [] = true := by
  cases x <;> simp [strContains, isPrefixB]

theorem mem_iff_getD (ls : List (List Char)) (l : List Char) :
    l ∈ ls ↔ ∃ j, j < ls.length ∧ ls.getD j [] = l := by
  induction ls with
  | nil => simp
  | cons x ls ih =>
    simp only [List.mem_cons, ih, List.length_cons]
    constructor
    · rintro (rfl | ⟨j, hj, h⟩)
      · exact ⟨0, by omega, rfl⟩
      · exact ⟨j + 1, by omega, by simpa using h⟩
    · rintro ⟨j, hj, h⟩
      cases j with
      | zero => exact Or.inl (by simpa using h.symm)
      | succ j => exact Or.inr ⟨j, by omega, by simpa using h⟩

theorem getD_take (l : List (List Char)) :
    ∀ n j, j < n → (l.take n).getD j ([] : List Char) = l.getD j [] := by
  induction l with
  | nil => intro n j _; simp
  | cons x l ih =>
    intro n j hj
    cases n with
    | zero => omega
    | succ n =>
      cases j with
      | zero => simp
      | succ j => simpa using ih n j (by omega)

/-- C1: `search` with case-sensitive matching returns exactly the lines of
`contents` containing `query` as a literal substring, in strictly
ascending line-number order, each paired with its correct 1-based line
number and holding the line's full text. -/
theorem search_case_sensitive_correct (q c : List Char) :
    (search q c).Pairwise (fun a b => a.line_number < b.line_number)
    ∧ (∀ r ∈ search q c,
        ∃ j, j < (rustLines c).length ∧ (rustLines c).getD j [] = r.line
          ∧ r.line_number = j + 1 ∧ ∃ s t, r.line = s ++ q ++ t)
    ∧ ∀ j, j < (rustLines c).length →
        (∃ s t, (rustLines c).getD j [] = s ++ q ++ t) →
        SearchResult.new ((rustLines c).getD j []) (j + 1) ∈ search q c := by
  refine ⟨scanLines_pairwise _ _ 0, ?_, ?_⟩
  · intro r hr
    rcases (scanLines_mem_iff _ _ 0 r).mp hr with ⟨j, hj, h1, h2, h3⟩
    refine ⟨j, hj, h1, by omega, ?_⟩
    rw [h1] at h3
    exact (strContains_iff r.line q).mp h3
  · intro j hj hex
    refine (scanLines_mem_iff _ _ 0 _).mpr ⟨j, hj, rfl, by simp [SearchResult.new], ?_⟩
    exact (strContains_iff _ q).mpr hex

theorem search_case_sensitive_correct_witness :
    SearchResult.new ('n' :: 'e' :: []) 2
      ∈ search ('n' :: 'e' :: []) ('x' :: '\n' :: 'n' :: 'e' :: []) :=
  (search_case_sensitive_correct ('n' :: 'e' :: []) ('x' :: '\n' :: 'n' :: 'e' :: [])).2.2
    1 (by decide) ⟨[], [], by decide⟩

/-- C2: `search_case_insensitive` returns exactly the lines whose
lowercasing contains the lowercased query, each result holding the
line's original (non-lowercased) text and its 1-based line number. -/
theorem search_case_insensitive_correct (q c : List Char) :
    (search_case_insensitive q c).Pairwise (fun a b => a.line_number < b.line_number)
    ∧ (∀ r ∈ search_case_insensitive q c,
        ∃ j, j < (rustLines c).length ∧ (rustLines c).getD j [] = r.line
          ∧ r.line_number = j + 1
          ∧ ∃ s t, lowerStr r.line = s ++ lowerStr q ++ t)
    ∧ ∀ j, j < (rustLines c).length →
        (∃ s t, lowerStr ((rustLines c).getD j []) = s ++ lowerStr q ++ t) →
        SearchResult.new ((rustLines c).getD j []) (j + 1)
          ∈ search_case_insensitive q c := by
  refine ⟨scanLines_pairwise _ _ 0, ?_, ?_⟩
  · intro r hr
    rcases (scanLines_mem_iff _ _ 0 r).mp hr with ⟨j, hj, h1, h2, h3⟩
    refine ⟨j, hj, h1, by omega, ?_⟩
    rw [h1] at h3
    exact (strContains_iff (lowerStr r.line) (lowerStr q)).mp h3
  · intro j hj hex
    refine (scanLines_mem_iff _ _ 0 _).mpr ⟨j, hj, rfl, by simp [SearchResult.new], ?_⟩
    exact (strContains_iff _ (lowerStr q)).mpr hex

theorem search_case_insensitive_correct_witness :
    SearchResult.new ('n' :: 'e' :: []) 2
      ∈ search_case_insensitive ('N' :: 'E' :: []) ('x' :: '\n' :: 'n' :: 'e' :: []) :=
  (search_case_insensitive_correct ('N' :: 'E' :: [])
      ('x' :: '\n' :: 'n' :: 'e' :: [])).2.2
    1 (by decide) ⟨[], [], by decide⟩

/-- C3: with at least 3 argument tokens, `Config::new_from_args` succeeds,
takes the query from `args[1]` and the file path from `args[2]`, and
ignores every further token. -/
theorem new_from_args_success (args : List (List Char)) (dbg : Bool)
    (env : Option (List Char)) (h : 3 ≤ args.length) :
    Config.new_from_args args dbg env
      = Except.ok (Config.new (args.getD 1 []) (args.getD 2 []) env)
    ∧ (Config.new (args.getD 1 []) (args.getD 2 []) env).query = args.getD 1 []
    ∧ (Config.new (args.getD 1 []) (args.getD 2 []) env).filename = args.getD 2 []
    ∧ Config.new_from_args args dbg env
      = Config.new_from_args (args.take 3) dbg env := by
  have hlt : ¬ args.length < 3 := by omega
  have hlt3 : ¬ (args.take 3).length < 3 := by
    rw [List.length_take]; omega
  refine ⟨by simp [Config.new_from_args, hlt], rfl, rfl, ?_⟩
  simp only [Config.new_from_args, hlt, if_false, hlt3,
    getD_take args 3 1 (by omega), getD_take args 3 2 (by omega)]

theorem new_from_args_success_witness :
    Config.new_from_args (['p'] :: ['q'] :: ['f'] :: ['z'] :: []) true none
      = Except.ok (Config.new ['q'] ['f'] none) :=
  (new_from_args_success (['p'] :: ['q'] :: ['f'] :: ['z'] :: []) true none
    (by decide)).1

/-- C4: with fewer than 3 argument tokens, `Config::new_from_args` fails
with the insufficient-arguments error carrying the fixed usage
message, and with nothing else. -/
theorem new_from_args_insufficient (args : List (List Char)) (dbg : Bool)
    (env : Option (List Char)) (h : args.length < 3) :
    Config.new_from_args args dbg env = Except.error usageMsg := by
  simp [Config.new_from_args, h]

theorem new_from_args_insufficient_witness :
    Config.new_from_args (['p'] :: ['q'] :: []) false none
      = Except.error usageMsg :=
  new_from_args_insufficient (['p'] :: ['q'] :: []) false none (by decide)

/-- C6: an empty result list is a valid, successful return value; the
"no results" console notification is emitted if and only if the result
list is empty (in both case modes), and contents without a matching
line yield the empty list together with the notification, again in
both case modes. -/
theorem search_no_results (q c : List Char) :
    ((searchWithLog q c).2 = [noResultsMsg] ↔ search q c = [])
    ∧ ((searchCiWithLog q c).2 = [noResultsMsg] ↔ search_case_insensitive q c = [])
    ∧ ((∀ j, j < (rustLines c).length →
          ¬ ∃ s t, (rustLines c).getD j [] = s ++ q ++ t) →
        search q c = [] ∧ (searchWithLog q c).2 = [noResultsMsg])
    ∧ ((∀ j, j < (rustLines c).length →
          ¬ ∃ s t, lowerStr ((rustLines c).getD j []) = s ++ lowerStr q ++ t) →
        search_case_insensitive q c = []
          ∧ (searchCiWithLog q c).2 = [noResultsMsg]) := by
  have key : ∀ rs : List SearchResult,
      ((if rs.length = 0 then [noResultsMsg] else ([] : List (List Char)))
        = [noResultsMsg]) ↔ rs = [] := by
    intro rs
    rcases rs with _ | ⟨r, rs⟩
    · simp
    · simp [noResultsMsg]
  refine ⟨key (search q c), key (search_case_insensitive q c), ?_, ?_⟩
  · intro hno
    have hfalse : ∀ l ∈ rustLines c, (fun line => strContains line q) l = false := by
      intro l hl
      rcases (mem_iff_getD (rustLines c) l).mp hl with ⟨j, hj, hL⟩
      cases hb : strContains l q with
      | false => exact hb
      | true =>
        rcases (strContains_iff l q).mp hb with ⟨s, t, hst⟩
        exact absurd ⟨s, t, by rw [hL, hst]⟩ (hno j hj)
    have hempty : search q c = [] := scanLines_eq_nil _ (rustLines c) hfalse 0
    exact ⟨hempty, (key (search q c)).mpr hempty⟩
  · intro hno
    have hfalse : ∀ l ∈ rustLines c,
        (fun line => strContains (lowerStr line) (lowerStr q)) l = false := by
      intro l hl
      rcases (mem_iff_getD (rustLines c) l).mp hl with ⟨j, hj, hL⟩
      cases hb : strContains (lowerStr l) (lowerStr q) with
      | false => exact hb
      | true =>
        rcases (strContains_iff (lowerStr l) (lowerStr q)).mp hb with ⟨s, t, hst⟩
        exact absurd ⟨s, t, by rw [hL, hst]⟩ (hno j hj)
    have hempty : search_case_insensitive q c = [] :=
      scanLines_eq_nil _ (rustLines c) hfalse 0
    exact ⟨hempty, (key (search_case_insensitive q c)).mpr hempty⟩

theorem search_no_results_witness :
    (search ('z' :: []) ('a' :: 'b' :: []) = []
      ∧ (searchWithLog ('z' :: []) ('a' :: 'b' :: [])).2 = [noResultsMsg])
    ∧ (search_case_insensitive ('z' :: []) ('a' :: 'b' :: []) = []
      ∧ (searchCiWithLog ('z' :: []) ('a' :: 'b' :: [])).2 = [noResultsMsg]) :=
  ⟨(search_no_results ('z' :: []) ('a' :: 'b' :: [])).2.2.1 (by
      intro j hj h
      have hc : strContains ((rustLines ('a' :: 'b' :: [])).getD j [])
          ('z' :: []) = true :=
        (strContains_iff _ _).mpr h
      have hj0 : j = 0 := by
        have : (rustLines ('a' :: 'b' :: [])).length = 1 := by decide
        omega
      subst hj0
      revert hc
      decide),
   (search_no_results ('z' :: []) ('a' :: 'b' :: [])).2.2.2 (by
      intro j hj h
      have hc : strContains (lowerStr ((rustLines ('a' :: 'b' :: [])).getD j []))
          (lowerStr ('z' :: [])) = true :=
        (strContains_iff _ _).mpr h
      have hj0 : j = 0 := by
        have : (rustLines ('a' :: 'b' :: [])).length = 1 := by decide
        omega
      subst hj0
      revert hc
      decide)⟩

/-- C7: the configuration's `ignore_case` flag is true exactly when the
`MINIGREP_IGNORE_CASE` environment variable is present with value
exactly "1"; any other value or absence gives false, both through
`Config::new` and through `Config::new_from_args`. -/
theorem ignore_case_iff (q f : List Char) (env : Option (List Char)) :
    ((Config.new q f env).ignore_case = true ↔ env = some ['1'])
    ∧ ∀ (args : List (List Char)) (dbg : Bool) (cfg : Config),
        Config.new_from_args args dbg env = Except.ok cfg →
        (cfg.ignore_case = true ↔ env = some ['1']) := by
  have base : ∀ q' f' : List Char,
      ((Config.new q' f' env).ignore_case = true ↔ env = some ['1']) := by
    intro q' f'
    cases env with
    | none => simp [Config.new]
    | some v => simp [Config.new]
  refine ⟨base q f, ?_⟩
  intro args dbg cfg hok
  unfold Config.new_from_args at hok
  by_cases hl : args.length < 3
  · simp [hl] at hok
  · simp only [hl, if_false] at hok
    have hcfg : Config.new (args.getD 1 []) (args.getD 2 []) env = cfg := by
      simpa using hok
    rw [← hcfg]
    exact base _ _

theorem ignore_case_iff_witness :
    (Config.new ['q'] ['f'] (some ['1'])).ignore_case = true
    ∧ ¬ (Config.new ['q'] ['f'] (some ['0'])).ignore_case = true :=
  ⟨(ignore_case_iff ['q'] ['f'] (some ['1'])).1.mpr rfl,
   fun h => by
     have := (ignore_case_iff ['q'] ['f'] (some ['0'])).1.mp h
     exact absurd this (by decide)⟩

/-- C8 counterexample: the builder accepts an empty query, so a
configuration with empty `query` is constructible. -/
theorem config_query_empty_counterexample :
    Config.new_from_args (['p'] :: [] :: ['f'] :: []) false none
      = Except.ok (Config.new [] ['f'] none)
    ∧ (Config.new [] ['f'] none).query = [] := ⟨rfl, rfl⟩

/-- C8 (amended): the builder performs no non-emptiness validation: the
constructed configuration's `query` is exactly the supplied query
argument (`args[1]` for `new_from_args`), hence non-empty exactly when
that argument is non-empty. -/
theorem config_query_verbatim (q f : List Char) (env : Option (List Char)) :
    (Config.new q f env).query = q
    ∧ ((Config.new q f env).query ≠ [] ↔ q ≠ [])
    ∧ ∀ (args : List (List Char)) (dbg : Bool) (cfg : Config),
        Config.new_from_args args dbg env = Except.ok cfg →
        cfg.query = args.getD 1 [] := by
  refine ⟨rfl, Iff.rfl, ?_⟩
  intro args dbg cfg hok
  unfold Config.new_from_args at hok
  by_cases hl : args.length < 3
  · simp [hl] at hok
  · simp only [hl, if_false] at hok
    have hcfg : Config.new (args.getD 1 []) (args.getD 2 []) env = cfg := by
      simpa using hok
    rw [← hcfg]
    rfl

theorem config_query_verbatim_witness :
    (Config.new ['a'] ['f'] none).query ≠ [] :=
  (config_query_verbatim ['a'] ['f'] none).2.1.mpr (by decide)

/-- C9: `run` propagates a failure of the file-reading collaborator to
its caller unchanged, producing no output; on a successful read it
completes and returns its output lines. -/
theorem run_propagates_read_error
    (fs : List Char → Except (List Char) (List Char)) (config : Config) :
    (∀ e, fs config.filename = Except.error e → run fs config = Except.error e)
    ∧ ∀ contents, fs config.filename = Except.ok contents →
        ∃ out, run fs config = Except.ok out := by
  constructor
  · intro e he
    unfold run read_file
    rw [he]
  · intro contents hc
    unfold run read_file
    rw [hc]
    exact ⟨_, rfl⟩

theorem run_propagates_read_error_witness :
    run (fun _ => Except.error ('e' :: [])) (Config.new ['q'] ['f'] none)
      = Except.error ('e' :: []) :=
  (run_propagates_read_error (fun _ => Except.error ('e' :: []))
    (Config.new ['q'] ['f'] none)).1 ('e' :: []) rfl

/-- C10: the empty query matches every line in both case modes: one
result per line of the contents, holding the full line and consecutive
1-based line numbers; the empty query is never rejected. -/
theorem search_empty_query (c : List Char) :
    (search [] c).length = (rustLines c).length
    ∧ (∀ j, j < (rustLines c).length →
        (search [] c).getD j (SearchResult.new [] 0)
          = SearchResult.new ((rustLines c).getD j []) (j + 1))
    ∧ search_case_insensitive [] c = search [] c := by
  have hall : ∀ l ∈ rustLines c, (fun line => strContains line []) l = true :=
    fun l _ => strContains_nil l
  have h := scanLines_all (fun line => strContains line []) (rustLines c) hall 0
  refine ⟨h.1, fun j hj => by simpa using h.2 j hj, ?_⟩
  unfold search_case_insensitive search
  exact scanLines_congr _ _ (rustLines c)
    (fun l _ => by
      rw [show lowerStr [] = [] from rfl, strContains_nil, strContains_nil]) 0

theorem search_empty_query_witness :
    (search [] ('a' :: [])).getD 0 (SearchResult.new [] 0)
      = SearchResult.new ('a' :: []) 1 :=
  (search_empty_query ('a' :: [])).2.1 0 (by decide)

/-! Line splitting: the single-pass `linesGo` scanner agrees with the
compositional description "split at newlines, strip a carriage return
before each newline, drop an empty final segment". -/

theorem splitNl_nil : splitNl [] = ([], []) := rfl

theorem splitNl_cons (ch : Char) (rest : List Char) :
    splitNl (ch :: rest)
      = if ch = '\n' then ([], (splitNl rest).1 :: (splitNl rest).2)
        else (ch :: (splitNl rest).1, (splitNl rest).2) := rfl

theorem assemble_single (l : List Char) :
    assemble [l] = if l = [] then [] else [l] := rfl

theorem assemble_cons2 (l x : List Char) (ls : List (List Char)) :
    assemble (l :: x :: ls) = stripTrailCR l :: assemble (x :: ls) := rfl

theorem stripCRrev_eq (acc : List Char) :
    stripCRrev acc = stripTrailCR acc.reverse := by
  cases acc with
  | nil => rfl
  | cons ch rest =>
    by_cases h : ch = '\r'
    · subst h
      simp [stripCRrev, stripTrailCR, List.reverse_cons, List.getLast?_concat,
        List.dropLast_concat]
    · simp [stripCRrev, h, stripTrailCR, List.reverse_cons, List.getLast?_concat]

theorem linesGo_eq : ∀ (s acc : List Char), s ≠ [] ∨ acc ≠ [] →
    linesGo s acc = assemble ((acc.reverse ++ (splitNl s).1) :: (splitNl s).2) := by
  intro s
  induction s with
  | nil =>
    intro acc h
    rcases h with h | h
    · exact absurd rfl h
    · simp only [linesGo, splitNl_nil, List.append_nil]
      rw [assemble_single, if_neg (by simpa using h)]
  | cons ch rest ih =>
    intro acc _
    by_cases hc : ch = '\n'
    · subst hc
      cases rest with
      | nil =>
        have hL : linesGo ('\n' :: []) acc = [stripCRrev acc] := rfl
        rw [hL, stripCRrev_eq]
        rw [splitNl_cons, if_pos rfl, splitNl_nil]
        rw [List.append_nil, assemble_cons2, assemble_single, if_pos rfl]
      | cons r2 rest2 =>
        have hL : linesGo ('\n' :: r2 :: rest2) acc
            = stripCRrev acc :: linesGo (r2 :: rest2) [] := rfl
        have hsp : splitNl ('\n' :: r2 :: rest2)
            = ([], (splitNl (r2 :: rest2)).1 :: (splitNl (r2 :: rest2)).2) := by
          rw [splitNl_cons]
          rw [if_pos rfl]
        rw [hL, stripCRrev_eq, ih [] (Or.inl (List.cons_ne_nil r2 rest2)), hsp]
        simp [assemble_cons2]
    · have hL : linesGo (ch :: rest) acc = linesGo rest (ch :: acc) := by
        simp [linesGo, hc]
      rw [hL, ih (ch :: acc) (Or.inr (List.cons_ne_nil ch acc))]
      rw [splitNl_cons, if_neg hc]
      simp [List.reverse_cons, List.append_assoc]

theorem rustLines_eq (c : List Char) : rustLines c = assemble (splitSegs c) := by
  cases c with
  | nil => rfl
  | cons ch rest =>
    have h := linesGo_eq (ch :: rest) [] (Or.inl (List.cons_ne_nil ch rest))
    simpa [rustLines, splitSegs] using h

theorem splitNl_no_newline (c : List Char) :
    (∀ x ∈ (splitNl c).1, x ≠ '\n')
    ∧ ∀ seg ∈ (splitNl c).2, ∀ x ∈ seg, x ≠ '\n' := by
  induction c with
  | nil => simp [splitNl_nil]
  | cons ch rest ih =>
    rw [splitNl_cons]
    by_cases hc : ch = '\n'
    · subst hc
      rw [if_pos rfl]
      refine ⟨by simp, ?_⟩
      intro seg hseg
      rcases List.mem_cons.mp hseg with rfl | hseg'
      · exact ih.1
      · exact ih.2 seg hseg'
    · rw [if_neg hc]
      refine ⟨?_, ih.2⟩
      intro x hx
      rcases List.mem_cons.mp hx with rfl | hx'
      · exact hc
      · exact ih.1 x hx'

theorem mem_stripTrailCR (x : Char) (l : List Char) (h : x ∈ stripTrailCR l) :
    x ∈ l := by
  unfold stripTrailCR at h
  split at h
  · exact List.mem_of_mem_dropLast h
  · exact h

theorem mem_assemble : ∀ (segs : List (List Char)) (l : List Char),
    l ∈ assemble segs → ∃ seg ∈ segs, l = seg ∨ l = stripTrailCR seg := by
  intro segs
  induction segs with
  | nil => simp [assemble]
  | cons s rest ih =>
    intro l hl
    cases rest with
    | nil =>
      rw [assemble_single] at hl
      split at hl
      · simp at hl
      · rcases List.mem_singleton.mp hl with rfl
        exact ⟨l, List.mem_cons_self l [], Or.inl rfl⟩
    | cons s2 rest2 =>
      rw [assemble_cons2] at hl
      rcases List.mem_cons.mp hl with rfl | hl'
      · exact ⟨s, List.mem_cons_self s _, Or.inr rfl⟩
      · rcases ih l hl' with ⟨seg, hseg, hor⟩
        exact ⟨seg, List.mem_cons_of_mem s hseg, hor⟩

theorem rustLines_no_newline (c l : List Char) (hl : l ∈ rustLines c) :
    '\n' ∉ l := by
  rw [rustLines_eq] at hl
  rcases mem_assemble _ l hl with ⟨seg, hseg, hor⟩
  have hsegP : ∀ x ∈ seg, x ≠ '\n' := by
    rcases List.mem_cons.mp hseg with rfl | hseg'
    · exact (splitNl_no_newline c).1
    · exact (splitNl_no_newline c).2 seg hseg'
  intro hx
  rcases hor with rfl | rfl
  · exact hsegP '\n' hx rfl
  · exact hsegP '\n' (mem_stripTrailCR '\n' seg hx) rfl

theorem splitNl_append_newline (c : List Char) :
    splitNl (c ++ ['\n']) = ((splitNl c).1, (splitNl c).2 ++ [[]]) := by
  induction c with
  | nil => rfl
  | cons ch rest ih =>
    show splitNl (ch :: (rest ++ ['\n'])) = _
    rw [splitNl_cons, ih, splitNl_cons]
    by_cases hc : ch = '\n' <;> simp [hc]

theorem assemble_concat_nil : ∀ l : List (List Char),
    assemble (l ++ [[]]) = l.map stripTrailCR := by
  intro l
  induction l with
  | nil => rfl
  | cons s rest ih =>
    cases rest with
    | nil =>
      show assemble (s :: [] :: []) = _
      rw [assemble_cons2, assemble_single, if_pos rfl]
      rfl
    | cons s2 rest2 =>
      show assemble (s :: ((s2 :: rest2) ++ [[]])) = _
      rw [show (s2 :: rest2) ++ [[]] = s2 :: (rest2 ++ [[]]) from rfl]
      rw [assemble_cons2]
      rw [show (s2 : List Char) :: (rest2 ++ [[]]) = (s2 :: rest2) ++ [[]] from rfl]
      rw [ih]
      rfl

theorem assemble_eq_map : ∀ (segs : List (List Char)) (lst : List Char),
    segs.getLast? = some lst → lst ≠ [] → lst.getLast? ≠ some '\r' →
    assemble segs = segs.map stripTrailCR := by
  intro segs
  induction segs with
  | nil => intro lst h; simp at h
  | cons s rest ih =>
    intro lst hlast hne hcr
    cases rest with
    | nil =>
      have hs : s = lst := by simpa using hlast
      subst hs
      rw [assemble_single, if_neg hne]
      simp [stripTrailCR, hcr]
    | cons s2 rest2 =>
      have hlast' : (s2 :: rest2).getLast? = some lst := by
        rw [← List.getLast?_cons_cons (a := s)]
        exact hlast
      rw [assemble_cons2, ih lst hlast' hne hcr]
      simp

theorem splitSegs_getLast : ∀ c : List Char, c ≠ [] → c.getLast? ≠ some '\n' →
    ∃ lst, (splitSegs c).getLast? = some lst ∧ lst ≠ []
      ∧ lst.getLast? = c.getLast? := by
  intro c
  induction c with
  | nil => intro hc _; exact absurd rfl hc
  | cons ch rest ih =>
    intro _ hn
    cases rest with
    | nil =>
      have hch : ch ≠ '\n' := by
        intro h
        exact hn (by simp [h])
      refine ⟨[ch], ?_, by simp, by simp⟩
      simp [splitSegs, splitNl_cons, splitNl_nil, hch]
    | cons r2 rest2 =>
      have hlast_c : (ch :: r2 :: rest2).getLast? = (r2 :: rest2).getLast? :=
        List.getLast?_cons_cons
      have hn' : (r2 :: rest2).getLast? ≠ some '\n' := by
        rw [← hlast_c]; exact hn
      rcases ih (List.cons_ne_nil r2 rest2) hn' with ⟨lst, h1, h2, h3⟩
      by_cases hch : ch = '\n'
      · subst hch
        refine ⟨lst, ?_, h2, by rw [h3, hlast_c]⟩
        have : splitSegs ('\n' :: r2 :: rest2)
            = [] :: (splitNl (r2 :: rest2)).1 :: (splitNl (r2 :: rest2)).2 := by
          simp [splitSegs, splitNl_cons]
        rw [this, List.getLast?_cons_cons]
        exact h1
      · have hsp : splitSegs (ch :: r2 :: rest2)
            = (ch :: (splitNl (r2 :: rest2)).1) :: (splitNl (r2 :: rest2)).2 := by
          simp [splitSegs, splitNl_cons, hch]
        cases hT : (splitNl (r2 :: rest2)).2 with
        | nil =>
          have h1' : (splitNl (r2 :: rest2)).1 = lst := by
            rw [show splitSegs (r2 :: rest2)
                  = (splitNl (r2 :: rest2)).1 :: (splitNl (r2 :: rest2)).2 from rfl,
              hT] at h1
            simpa using h1
          refine ⟨ch :: lst, ?_, List.cons_ne_nil ch lst, ?_⟩
          · rw [hsp, hT, h1']
            simp
          · rcases List.exists_cons_of_ne_nil h2 with ⟨y, ys, hy⟩
            rw [hy, List.getLast?_cons_cons, ← hy, h3, hlast_c]
        | cons t ts =>
          refine ⟨lst, ?_, h2, by rw [h3, hlast_c]⟩
          rw [hsp, hT, List.getLast?_cons_cons]
          rw [show splitSegs (r2 :: rest2)
                = (splitNl (r2 :: rest2)).1 :: (splitNl (r2 :: rest2)).2 from rfl,
            hT, List.getLast?_cons_cons] at h1
          exact h1

theorem rustLines_append_newline (c : List Char) (hc : c ≠ [])
    (h1 : c.getLast? ≠ some '\n') (h2 : c.getLast? ≠ some '\r') :
    rustLines (c ++ ['\n']) = rustLines c := by
  rw [rustLines_eq, rustLines_eq]
  have e1 : splitSegs (c ++ ['\n'])
      = ((splitNl c).1 :: (splitNl c).2) ++ [[]] := by
    simp [splitSegs, splitNl_append_newline]
  rw [e1, assemble_concat_nil]
  rcases splitSegs_getLast c hc h1 with ⟨lst, hl, hne, hlr⟩
  rw [assemble_eq_map (splitSegs c) lst hl hne (by rw [hlr]; exact h2)]
  rfl

/-- C5 counterexample: on the input "a\r\nb" the code returns the line
"a" (the `'\r'` before the `'\n'` is stripped), not the maximal run
"a\r" of characters other than `'\n'` that the claim's wording
(`claimLines`) describes. -/
theorem lines_maximal_run_counterexample :
    rustLines ('a' :: '\r' :: '\n' :: 'b' :: [])
      = (('a' :: []) :: ('b' :: []) :: [])
    ∧ claimLines ('a' :: '\r' :: '\n' :: 'b' :: [])
      = (('a' :: '\r' :: []) :: ('b' :: []) :: [])
    ∧ rustLines ('a' :: '\r' :: '\n' :: 'b' :: [])
      ≠ claimLines ('a' :: '\r' :: '\n' :: 'b' :: []) := by decide

/-- C5 (amended): the search engine splits contents at `'\n'`, removing a
single `'\r'` immediately preceding each `'\n'`; no line contains a
newline; a trailing newline after nonempty text not already ending in a
line break produces no spurious empty trailing line; empty input yields
zero lines and an empty result for every query. -/
theorem lines_splitting (c : List Char) :
    rustLines [] = ([] : List (List Char))
    ∧ (∀ q, search q [] = [] ∧ search_case_insensitive q [] = [])
    ∧ (∀ l ∈ rustLines c, '\n' ∉ l)
    ∧ rustLines c = assemble (splitSegs c)
    ∧ (c ≠ [] → c.getLast? ≠ some '\n' → c.getLast? ≠ some '\r' →
        rustLines (c ++ ['\n']) = rustLines c) :=
  ⟨rfl, fun _ => ⟨rfl, rfl⟩, fun l hl => rustLines_no_newline c l hl,
    rustLines_eq c, fun hc h1 h2 => rustLines_append_newline c hc h1 h2⟩

theorem lines_splitting_witness :
    rustLines (('a' :: 'b' :: []) ++ ('\n' :: []))
      = rustLines ('a' :: 'b' :: []) :=
  (lines_splitting ('a' :: 'b' :: [])).2.2.2.2 (by decide) (by decide) (by decide)

end Minigrep
